import Mathlib

/-!
Verification of the waveform-generator core (main.c): the waveform sampler
`sample_base_waveform`, the sine table/plot generator `sine_plot`, the
per-sample bodies of the modulation routines `run_AM` / `run_FM` / `run_PWM`,
and the ASCII renderer `print_ascii_from_yvals`.

Machine floats are modelled by real numbers; C's `fmodf` (remainder with the
sign of the dividend, i.e. truncated division) and the `(int)` cast
(truncation toward zero) are modelled explicitly by `truncR` and `fmodf`.
-/

open Real

/-- Truncation of a real toward zero, the semantics of C's `(int)` cast. -/
noncomputable def truncR (x : ℝ) : ℤ :=
  if 0 ≤ x then ⌊x⌋ else ⌈x⌉

/-- C's `fmodf`: remainder of `x / y` with the sign of the dividend,
`x - y * trunc (x / y)`. -/
noncomputable def fmodf (x y : ℝ) : ℝ :=
  x - y * (truncR (x / y) : ℝ)

/-- The global configuration state of main.c (the `static float` variables
`fre_*`, `amp_*`, `phase_sin`, `duty_cycle`, `slope`). -/
structure Config where
  fre_sin : ℝ
  fre_squ : ℝ
  fre_saw : ℝ
  fre_tra : ℝ
  amp_sin : ℝ
  amp_squ : ℝ
  amp_saw : ℝ
  amp_tra : ℝ
  phase_sin : ℝ
  duty_cycle : ℝ
  slope : ℝ

/-- `sample_base_waveform(int waveform_type, float t)` from main.c:
kind 1 = sine (no frequency guard), kind 2 = square, kind 3 = triangle,
kind 4 = sawtooth (each guarded by `freq <= 0 -> 0`), any other kind 0. -/
noncomputable def sample_base_waveform (cfg : Config) (waveform_type : ℤ) (t : ℝ) : ℝ :=
  if waveform_type = 1 then
    cfg.amp_sin * Real.sin (2 * π * cfg.fre_sin * t + cfg.phase_sin)
  else if waveform_type = 2 then
    if cfg.fre_squ ≤ 0 then 0
    else
      let T := 1 / cfg.fre_squ
      let pos := fmodf t T / T
      if pos < cfg.duty_cycle then cfg.amp_squ else -cfg.amp_squ
  else if waveform_type = 3 then
    if cfg.fre_tra ≤ 0 then 0
    else
      let T := 1 / cfg.fre_tra
      let pos := fmodf t T / T
      if pos < 1/2 then -cfg.amp_tra + 4 * cfg.amp_tra * pos
      else 3 * cfg.amp_tra - 4 * cfg.amp_tra * pos
  else if waveform_type = 4 then
    if cfg.fre_saw ≤ 0 then 0
    else
      let T := 1 / cfg.fre_saw
      let frac := fmodf t T / T;
      -cfg.amp_saw + 2 * cfg.amp_saw * frac
  else 0

/-- The `amp_base` lookup switch repeated in `run_AM`, `run_FM`, `run_PWM`:
the configured amplitude of the base waveform kind, defaulting to 1. -/
noncomputable def amp_base (cfg : Config) (waveform_type : ℤ) : ℝ :=
  if waveform_type = 1 then cfg.amp_sin
  else if waveform_type = 2 then cfg.amp_squ
  else if waveform_type = 3 then cfg.amp_tra
  else if waveform_type = 4 then cfg.amp_saw
  else 1

/-- The normalized base value `xnorm = (amp_base != 0) ? xt / amp_base : 0`
computed identically in `run_AM`, `run_FM` and `run_PWM`. -/
noncomputable def xnorm (cfg : Config) (waveform_type : ℤ) (t : ℝ) : ℝ :=
  if amp_base cfg waveform_type ≠ 0 then
    sample_base_waveform cfg waveform_type t / amp_base cfg waveform_type
  else 0


/-! The per-period sample grids of `sine_plot` (table: 8 points, plot: 100
points over one period `1/fre_sin`), from main.c. -/

/-- Table sample of `sine_plot`: `t = i * (period / 8)`,
`y = amp_sin * sinf(2*PI*fre_sin*t + phase_sin)` (phase in the angle). -/
noncomputable def sineTableY (f amp phase : ℝ) (i : ℕ) : ℝ :=
  amp * Real.sin (2 * π * f * ((i : ℝ) * ((1 / f) / 8)) + phase)

/-- The `time_shift` of `sine_plot`: `phase / (2*PI*fre_sin)` when
`fre_sin != 0`, else 0. -/
noncomputable def timeShift (f phase : ℝ) : ℝ :=
  if f ≠ 0 then phase / (2 * π * f) else 0

/-- Plot sample of `sine_plot`: `t = i * (period / 100) + time_shift`,
`y = amp_sin * sinf(2*PI*fre_sin*t)` (phase only as a time shift). -/
noncomputable def sinePlotY (f amp phase : ℝ) (i : ℕ) : ℝ :=
  amp * Real.sin (2 * π * f * ((i : ℝ) * ((1 / f) / 100) + timeShift f phase))

/-- Table sample of `square_plot`: `t = i * ((1/fre_squ) / 8)`,
`y = sample_base_waveform(2, t)`. -/
noncomputable def squareTableY (cfg : Config) (i : ℕ) : ℝ :=
  sample_base_waveform cfg 2 ((i : ℝ) * ((1 / cfg.fre_squ) / 8))

/-! The per-sample bodies of the modulation loops in main.c. Each loop
computes `xt`, the `amp_base` switch, the guarded normalization `xnorm`,
and then the modulated output; the three routines share `t = i * step`
with `step = period / N` and `period = (fc > 0) ? 1/fc : 1`. -/

/-- The carrier period used by `run_AM` / `run_FM` / `run_PWM`:
`(fc > 0.0f) ? 1.0f / fc : 1.0f`. -/
noncomputable def carrier_period (fc : ℝ) : ℝ :=
  if 0 < fc then 1 / fc else 1

/-- The AM output value computed per sample inside `run_AM`:
`y = (Ac * (1 + m * xnorm)) * sinf(2*PI*fc*t)`. -/
noncomputable def run_AM_y (cfg : Config) (waveform_type : ℤ) (Ac fc m t : ℝ) : ℝ :=
  let xt := sample_base_waveform cfg waveform_type t
  let ab := amp_base cfg waveform_type
  let xn := if ab ≠ 0 then xt / ab else 0
  (Ac * (1 + m * xn)) * Real.sin (2 * π * fc * t)

/-- The FM output value computed per sample inside `run_FM`:
`inst_phase = 2*PI*fc*t + beta * xnorm`, `y = Ac * sinf(inst_phase)`. -/
noncomputable def run_FM_y (cfg : Config) (waveform_type : ℤ) (Ac fc beta t : ℝ) : ℝ :=
  let xt := sample_base_waveform cfg waveform_type t
  let ab := amp_base cfg waveform_type
  let xn := if ab ≠ 0 then xt / ab else 0
  let inst_phase := 2 * π * fc * t + beta * xn
  Ac * Real.sin inst_phase

/-- The PWM output value computed per sample inside `run_PWM`:
`carrier_frac = fmodf(t, period)/period`, `tri = -1 + 2*carrier_frac`,
`y = (xnorm > tri) ? Ac : -Ac`, with `period = (fpwm > 0) ? 1/fpwm : 1`. -/
noncomputable def run_PWM_y (cfg : Config) (waveform_type : ℤ) (fpwm Ac t : ℝ) : ℝ :=
  let period := carrier_period fpwm
  let xt := sample_base_waveform cfg waveform_type t
  let ab := amp_base cfg waveform_type
  let xn := if ab ≠ 0 then xt / ab else 0
  let carrier_frac := fmodf t period / period
  let tri := -1 + 2 * carrier_frac
  if tri < xn then Ac else -Ac

/-! The ASCII renderer `print_ascii_from_yvals(yvals, cols, rows, amp)`. -/

/-- The sequential clamp `if (frac < 0) frac = 0; if (frac > 1) frac = 1;`. -/
noncomputable def clamp01 (x : ℝ) : ℝ :=
  let x1 := if x < 0 then 0 else x
  if 1 < x1 then 1 else x1

/-- The column fraction of `print_ascii_from_yvals`: `frac = 0.5`, replaced
by `(amp - y) / (2*amp)` when `amp != 0`, then clamped to `[0,1]`. -/
noncomputable def fracFor (amp y : ℝ) : ℝ :=
  clamp01 (if amp ≠ 0 then (amp - y) / (2 * amp) else 1/2)

/-- The sequential row clamp `if (row < 0) row = 0; if (row >= rows) row = rows - 1;`. -/
def clampRow (r rows : ℤ) : ℤ :=
  let r1 := if r < 0 then 0 else r
  if rows ≤ r1 then rows - 1 else r1

/-- The row a value is drawn at: `row = (int)(frac * (rows - 1) + 0.5f)`,
clamped into `[0, rows-1]`. -/
noncomputable def rowFor (amp y : ℝ) (rows : ℤ) : ℤ :=
  clampRow (truncR (fracFor amp y * ((rows : ℝ) - 1) + 1/2)) rows

/-- The reference ("axis") row of `print_ascii_from_yvals`:
`mid_row = (int)(((amp - 0.0f) / (2.0f * (amp == 0.0f ? 1.0f : amp))) * (rows - 1) + 0.5f)`,
clamped into `[0, rows-1]`. -/
noncomputable def midRowFor (amp : ℝ) (rows : ℤ) : ℤ :=
  clampRow
    (truncR ((amp - 0) / (2 * (if amp = 0 then 1 else amp)) * ((rows : ℝ) - 1) + 1/2))
    rows

/-- The lines printed by `print_ascii_from_yvals`: empty (an early `return`
with no output) when the guard `!yvals || cols <= 0 || rows <= 0` fires,
otherwise the canvas: cell `(r, c)` holds the signal marker when the value
of column `c` maps to row `r`, else the axis marker on the reference row,
else a blank. -/
noncomputable def print_ascii_from_yvals
    (yvals : List ℝ) (cols rows : ℤ) (amp : ℝ) : List (List Char) :=
  if yvals = [] ∨ cols ≤ 0 ∨ rows ≤ 0 then []
  else
    (List.range rows.toNat).map (fun (r : ℕ) =>
      (List.range cols.toNat).map (fun (c : ℕ) =>
        if rowFor amp (yvals.getD c 0) rows = (r : ℤ) then '*'
        else if (r : ℤ) = midRowFor amp rows then '-'
        else ' '))


/-! The triangle branch of `sample_base_waveform` as a function of the
normalized position `pos` inside one period. -/

/-- The triangle piecewise shape from case 3 of `sample_base_waveform`:
`-amp + 4*amp*pos` for `pos < 0.5`, else `3*amp - 4*amp*pos`. -/
noncomputable def triangleShape (amp pos : ℝ) : ℝ :=
  if pos < 1/2 then -amp + 4 * amp * pos else 3 * amp - 4 * amp * pos

/-! Concrete configurations used to instantiate the theorems. -/

/-- The default configuration of main.c: every frequency and amplitude 1,
phase 0, duty cycle 0.5, slope 1. -/
noncomputable def cfgUnit : Config :=
  { fre_sin := 1, fre_squ := 1, fre_saw := 1, fre_tra := 1
    amp_sin := 1, amp_squ := 1, amp_saw := 1, amp_tra := 1
    phase_sin := 0, duty_cycle := 1/2, slope := 1 }

/-- A configuration whose square, triangle and sawtooth frequencies are 0. -/
noncomputable def cfgZeroFreq : Config :=
  { cfgUnit with fre_squ := 0, fre_tra := 0, fre_saw := 0 }

/-- A configuration with sine frequency 0 and sine phase `π/2`. -/
noncomputable def cfgSineZeroFreq : Config :=
  { cfgUnit with fre_sin := 0, phase_sin := π/2 }
/-! Basic facts about `fmodf` on the nonnegative reals. -/

theorem truncR_of_nonneg {x : ℝ} (hx : 0 ≤ x) : truncR x = ⌊x⌋ := by
  simp [truncR, hx]

theorem fmodf_div_eq_fract {t T : ℝ} (ht : 0 ≤ t) (hT : 0 < T) :
    fmodf t T / T = Int.fract (t / T) := by
  have hT0 : T ≠ 0 := ne_of_gt hT
  rw [fmodf, truncR_of_nonneg (div_nonneg ht hT.le), Int.fract]
  field_simp

theorem fmodf_div_nonneg {t T : ℝ} (ht : 0 ≤ t) (hT : 0 < T) :
    0 ≤ fmodf t T / T := by
  rw [fmodf_div_eq_fract ht hT]; exact Int.fract_nonneg _

theorem fmodf_div_lt_one {t T : ℝ} (ht : 0 ≤ t) (hT : 0 < T) :
    fmodf t T / T < 1 := by
  rw [fmodf_div_eq_fract ht hT]; exact Int.fract_lt_one _

theorem fmodf_of_lt {t T : ℝ} (ht : 0 ≤ t) (htT : t < T) : fmodf t T = t := by
  have hT : 0 < T := lt_of_le_of_lt ht htT
  have h0 : ⌊t / T⌋ = 0 := by
    rw [Int.floor_eq_zero_iff]
    constructor
    · exact div_nonneg ht hT.le
    · rw [div_lt_one hT]; exact htT
  rw [fmodf, truncR_of_nonneg (div_nonneg ht hT.le), h0]
  push_cast
  ring

/-- C10: for every waveform_type outside {1, 2, 3, 4} and every time t,
`sample_base_waveform` returns exactly 0 — the kind dispatch is total and an
unknown kind degrades to the flat zero signal. -/
theorem sample_base_waveform_unknown_kind (cfg : Config) (wt : ℤ) (t : ℝ)
    (h1 : wt ≠ 1) (h2 : wt ≠ 2) (h3 : wt ≠ 3) (h4 : wt ≠ 4) :
    sample_base_waveform cfg wt t = 0 := by
  simp [sample_base_waveform, h1, h2, h3, h4]

theorem sample_base_waveform_unknown_kind_witness :
    (5 : ℤ) ≠ 1 ∧ sample_base_waveform cfgUnit 5 0 = 0 :=
  ⟨by decide,
   sample_base_waveform_unknown_kind cfgUnit 5 0
     (by decide) (by decide) (by decide) (by decide)⟩

/-- C1 counterexample: the Sine case of `sample_base_waveform` has no
frequency guard.  With `fre_sin = 0 ≤ 0`, `amp_sin = 1` and
`phase_sin = π/2`, the sample at `t = 0` is `sin(π/2) = 1`, not 0. -/
theorem sine_has_no_zero_freq_guard :
    cfgSineZeroFreq.fre_sin ≤ 0 ∧
    sample_base_waveform cfgSineZeroFreq 1 0 = 1 ∧
    sample_base_waveform cfgSineZeroFreq 1 0 ≠ 0 := by
  refine ⟨le_of_eq rfl, ?_, ?_⟩ <;>
    norm_num [sample_base_waveform, cfgSineZeroFreq, cfgUnit, Real.sin_pi_div_two]

/-- C1 (amended): the Square, Triangle and Sawtooth cases of
`sample_base_waveform` return 0 for every time t when the kind's configured
frequency is ≤ 0; the Sine case applies no such guard. -/
theorem sample_base_waveform_zero_freq_guard (cfg : Config) (t : ℝ) :
    (cfg.fre_squ ≤ 0 → sample_base_waveform cfg 2 t = 0) ∧
    (cfg.fre_tra ≤ 0 → sample_base_waveform cfg 3 t = 0) ∧
    (cfg.fre_saw ≤ 0 → sample_base_waveform cfg 4 t = 0) := by
  refine ⟨fun h => ?_, fun h => ?_, fun h => ?_⟩ <;>
    norm_num [sample_base_waveform, h]

theorem sample_base_waveform_zero_freq_guard_witness :
    cfgZeroFreq.fre_squ ≤ 0 ∧ sample_base_waveform cfgZeroFreq 2 3 = 0 :=
  ⟨le_of_eq rfl,
   (sample_base_waveform_zero_freq_guard cfgZeroFreq 3).1 (le_of_eq rfl)⟩

/-- C6: for every time t, the FM output of `run_FM` equals
`carrier_amplitude * sin(2π*carrier_freq*t + beta * normalized_base(t))` —
the pointwise (non-integrating) phase-modulation formula. -/
theorem run_FM_is_pointwise_phase_modulation
    (cfg : Config) (wt : ℤ) (Ac fc beta t : ℝ) :
    run_FM_y cfg wt Ac fc beta t
      = Ac * Real.sin (2 * π * fc * t + beta * xnorm cfg wt t) := by
  simp only [run_FM_y, xnorm]

/-- C7: for every time t, the PWM output of `run_PWM` is `+Ac` when
`normalized_base(t) > -1 + 2*((t mod period)/period)` and `-Ac` otherwise,
where `period = 1/fpwm` when `fpwm > 0` and `period = 1` when `fpwm ≤ 0`
(no error raised at this layer). -/
theorem run_PWM_comparator (cfg : Config) (wt : ℤ) (fpwm Ac t : ℝ) :
    (run_PWM_y cfg wt fpwm Ac t
        = if -1 + 2 * (fmodf t (carrier_period fpwm) / carrier_period fpwm)
              < xnorm cfg wt t then Ac else -Ac) ∧
    (0 < fpwm → carrier_period fpwm = 1 / fpwm) ∧
    (fpwm ≤ 0 → carrier_period fpwm = 1) := by
  refine ⟨?_, fun h => ?_, fun h => ?_⟩
  · simp only [run_PWM_y, xnorm]
  · simp [carrier_period, h]
  · simp [carrier_period, not_lt.mpr h]

theorem run_PWM_comparator_witness :
    (0 : ℝ) < 2 ∧ carrier_period 2 = 1 / 2 :=
  ⟨by norm_num, (run_PWM_comparator cfgUnit 1 2 1 0).2.1 (by norm_num)⟩

/-- C2: for the unmodulated Sine display with frequency f > 0, the table
values are `amp * sin(2π*f*t_i + phase)` at `t_i = i*(1/f)/8` (phase in the
angle argument), while the plot values are
`amp * sin(2π*f*(i*(1/f)/100 + phase/(2π*f)))` (phase expressed only as a
time shift of a phase-free sine); for `phase = π/2`, `f = 1`, `amp = 1` the
table value at `t = 0` is `sin(π/2) = 1` and the plot reconstructs the same
value at the time-shifted `t = 0` position. -/
theorem sine_table_vs_plot_phase (f amp phase : ℝ) (hf : 0 < f) :
    (∀ i : ℕ, sineTableY f amp phase i
        = amp * Real.sin (2 * π * f * ((i : ℝ) * (1 / f) / 8) + phase)) ∧
    (∀ i : ℕ, sinePlotY f amp phase i
        = amp * Real.sin
            (2 * π * f * ((i : ℝ) * (1 / f) / 100 + phase / (2 * π * f)))) ∧
    sineTableY 1 1 (π / 2) 0 = 1 ∧
    sinePlotY 1 1 (π / 2) 0 = 1 := by
  have hf0 : f ≠ 0 := ne_of_gt hf
  refine ⟨fun i => ?_, fun i => ?_, ?_, ?_⟩
  · unfold sineTableY
    ring_nf
  · unfold sinePlotY timeShift
    rw [if_pos hf0]
    ring_nf
  · norm_num [sineTableY, Real.sin_pi_div_two]
  · have hπ : π ≠ 0 := Real.pi_ne_zero
    have harg : 2 * π * 1 * ((0 : ℕ) * ((1 / (1:ℝ)) / 100) + timeShift 1 (π / 2))
        = π / 2 := by
      rw [timeShift, if_pos (by norm_num : (1:ℝ) ≠ 0)]
      push_cast
      field_simp
      ring
    rw [sinePlotY, harg, Real.sin_pi_div_two, mul_one]

theorem sine_table_vs_plot_phase_witness :
    (0 : ℝ) < 1 ∧ sineTableY 1 1 (π / 2) 0 = 1 ∧ sinePlotY 1 1 (π / 2) 0 = 1 :=
  ⟨by norm_num, (sine_table_vs_plot_phase 1 1 (π / 2) (by norm_num)).2.2⟩

/-! Helper facts about the triangle shape. -/

theorem triangleShape_eq_abs (amp x : ℝ) :
    triangleShape amp x = amp - 4 * amp * |x - 1/2| := by
  unfold triangleShape
  rcases lt_or_le x (1/2) with h | h
  · rw [if_pos h, abs_of_neg (by linarith)]
    ring
  · rw [if_neg (not_lt.mpr h), abs_of_nonneg (by linarith)]
    ring

theorem triangleShape_continuous (amp : ℝ) : Continuous (triangleShape amp) := by
  have h : triangleShape amp = fun x => amp - 4 * amp * |x - 1/2| :=
    funext (triangleShape_eq_abs amp)
  rw [h]
  exact continuous_const.sub
    (continuous_const.mul (continuous_id.sub continuous_const).abs)

/-- C8: for the triangle wave with frequency > 0 and `pos = (t mod T)/T`, the
sample follows the piecewise shape `-amp + 4*amp*pos` on `pos < 0.5` and
`3*amp - 4*amp*pos` otherwise; the shape equals `-amp` at `pos = 0`, `+amp`
at `pos = 0.5`, tends to `-amp` as `pos → 1⁻`, and is continuous at
`pos = 0` and `pos = 0.5`. -/
theorem triangle_sample_shape (cfg : Config) (amp : ℝ) (hf : 0 < cfg.fre_tra) :
    (∀ t : ℝ, sample_base_waveform cfg 3 t
        = triangleShape cfg.amp_tra
            (fmodf t (1 / cfg.fre_tra) / (1 / cfg.fre_tra))) ∧
    triangleShape amp 0 = -amp ∧
    triangleShape amp (1/2) = amp ∧
    Filter.Tendsto (triangleShape amp) (nhdsWithin 1 (Set.Iio 1)) (nhds (-amp)) ∧
    ContinuousAt (triangleShape amp) 0 ∧
    ContinuousAt (triangleShape amp) (1/2) := by
  refine ⟨fun t => ?_, ?_, ?_, ?_, ?_, ?_⟩
  · simp [sample_base_waveform, triangleShape, not_le.mpr hf]
  · norm_num [triangleShape]
  · rw [triangleShape]
    norm_num
    ring
  · have h1 : triangleShape amp 1 = -amp := by
      rw [triangleShape_eq_abs]
      rw [show |(1:ℝ) - 1/2| = 1/2 by norm_num [abs_of_nonneg]]
      ring
    have h2 := ((triangleShape_continuous amp).tendsto 1).mono_left
      (nhdsWithin_le_nhds (s := Set.Iio (1:ℝ)))
    rw [h1] at h2
    exact h2
  · exact (triangleShape_continuous amp).continuousAt
  · exact (triangleShape_continuous amp).continuousAt

theorem triangle_sample_shape_witness :
    (0 : ℝ) < cfgUnit.fre_tra ∧ triangleShape 2 (1/2) = 2 :=
  ⟨by norm_num [cfgUnit],
   (triangle_sample_shape cfgUnit 2 (by norm_num [cfgUnit])).2.2.1⟩

/-- C3 counterexample: with `rows = 21` and `amp = 0`, every value still maps
to row 10 (the `frac = 0.5` fallback), but the reference-row formula has
numerator `amp - 0 = 0` over the guarded denominator, giving
`(int)(0 * 20 + 0.5) = 0`: the reference row is 0, so the trace does NOT
coincide with the reference row. -/
theorem renderer_amp_zero_reference_row_mismatch :
    rowFor 0 3 21 = 10 ∧ midRowFor 0 21 = 0 ∧ rowFor 0 3 21 ≠ midRowFor 0 21 := by
  have hfrac : fracFor 0 3 = 1/2 := by
    norm_num [fracFor, clamp01]
  have hrow : rowFor 0 3 21 = 10 := by
    rw [rowFor, hfrac]
    rw [show (1:ℝ)/2 * (((21:ℤ):ℝ) - 1) + 1/2 = 21/2 by push_cast; ring]
    norm_num [truncR, clampRow]
  have hmid : midRowFor 0 21 = 0 := by
    rw [midRowFor, if_pos rfl]
    rw [show ((0:ℝ) - 0) / (2 * 1) * (((21:ℤ):ℝ) - 1) + 1/2 = 1/2 by push_cast; ring]
    norm_num [truncR, clampRow]
  refine ⟨hrow, hmid, ?_⟩
  rw [hrow, hmid]
  decide

/-- C3 (amended): in the renderer with `rows = 21` the reference row equals
10 for every nonzero amp; when `amp = 0` the value-mapping fallback forces
`frac = 0.5`, so every value maps to row 10, but the reference-row formula
yields row 0 — the trace does not coincide with the reference row. -/
theorem renderer_reference_row (amp y : ℝ) :
    (amp ≠ 0 → midRowFor amp 21 = 10) ∧
    rowFor 0 y 21 = 10 ∧
    midRowFor 0 21 = 0 := by
  refine ⟨fun h => ?_, ?_, ?_⟩
  · rw [midRowFor, if_neg h]
    rw [show (amp - 0) / (2 * amp) * (((21:ℤ):ℝ) - 1) + 1/2 = 21/2 by
      push_cast
      field_simp
      ring]
    norm_num [truncR, clampRow]
  · rw [rowFor]
    rw [show fracFor 0 y = 1/2 by norm_num [fracFor, clamp01]]
    rw [show (1:ℝ)/2 * (((21:ℤ):ℝ) - 1) + 1/2 = 21/2 by push_cast; ring]
    norm_num [truncR, clampRow]
  · rw [midRowFor, if_pos rfl]
    rw [show ((0:ℝ) - 0) / (2 * 1) * (((21:ℤ):ℝ) - 1) + 1/2 = 1/2 by push_cast; ring]
    norm_num [truncR, clampRow]

theorem renderer_reference_row_witness :
    (2 : ℝ) ≠ 0 ∧ midRowFor 2 21 = 10 :=
  ⟨by norm_num, (renderer_reference_row 2 0).1 (by norm_num)⟩

/-- C9 counterexample: on malformed input (here an empty value sequence and
negative column count) `print_ascii_from_yvals` returns before printing
anything at all — the emitted line list is empty, so no error message is
produced, against the claim that malformed input is rejected "with a clear
error". -/
theorem print_ascii_malformed_is_silent :
    print_ascii_from_yvals [] (-1) 21 1 = [] := by
  rw [print_ascii_from_yvals, if_pos (Or.inl rfl)]

/-- C9 (amended): the renderer never fails for well-formed non-empty input —
it emits exactly `rows` lines of exactly `cols` characters each — and
rejects malformed input (empty value sequence, cols ≤ 0 or rows ≤ 0) by
returning early and emitting nothing (silently; no error message). -/
theorem print_ascii_shape (yvals : List ℝ) (cols rows : ℤ) (amp : ℝ) :
    (yvals ≠ [] → 0 < cols → 0 < rows →
      (print_ascii_from_yvals yvals cols rows amp).length = rows.toNat ∧
      ∀ line ∈ print_ascii_from_yvals yvals cols rows amp,
        line.length = cols.toNat) ∧
    ((yvals = [] ∨ cols ≤ 0 ∨ rows ≤ 0) →
      print_ascii_from_yvals yvals cols rows amp = []) := by
  constructor
  · intro h1 h2 h3
    have hguard : ¬(yvals = [] ∨ cols ≤ 0 ∨ rows ≤ 0) := by
      push_neg
      exact ⟨h1, h2, h3⟩
    rw [print_ascii_from_yvals, if_neg hguard]
    constructor
    · rw [List.length_map, List.length_range]
    · intro line hline
      simp only [List.mem_map] at hline
      obtain ⟨r, _, hr⟩ := hline
      rw [← hr, List.length_map, List.length_range]
  · intro h
    rw [print_ascii_from_yvals, if_pos h]

theorem print_ascii_shape_witness :
    ([(0:ℝ)] ≠ []) ∧ (0:ℤ) < 3 ∧ (0:ℤ) < 2 ∧
    (print_ascii_from_yvals [0] 3 2 1).length = (2:ℤ).toNat :=
  ⟨by simp, by decide, by decide,
   ((print_ascii_shape [0] 3 2 1).1 (by simp) (by decide) (by decide)).1⟩

/-! Per-kind evaluation lemmas for `sample_base_waveform` with positive
frequency. -/

theorem sample_square_pos (cfg : Config) (t : ℝ) (hf : 0 < cfg.fre_squ) :
    sample_base_waveform cfg 2 t
      = (if fmodf t (1 / cfg.fre_squ) / (1 / cfg.fre_squ) < cfg.duty_cycle
         then cfg.amp_squ else -cfg.amp_squ) := by
  rw [sample_base_waveform]
  norm_num [not_le.mpr hf]

theorem sample_triangle_pos (cfg : Config) (t : ℝ) (hf : 0 < cfg.fre_tra) :
    sample_base_waveform cfg 3 t
      = triangleShape cfg.amp_tra (fmodf t (1 / cfg.fre_tra) / (1 / cfg.fre_tra)) := by
  rw [sample_base_waveform, triangleShape]
  norm_num [not_le.mpr hf]

theorem sample_sawtooth_pos (cfg : Config) (t : ℝ) (hf : 0 < cfg.fre_saw) :
    sample_base_waveform cfg 4 t
      = -cfg.amp_saw
          + 2 * cfg.amp_saw * (fmodf t (1 / cfg.fre_saw) / (1 / cfg.fre_saw)) := by
  rw [sample_base_waveform]
  norm_num [not_le.mpr hf]

open scoped Classical

/-- C4: for the square wave with `duty_cycle = 0.5`, frequency > 0 and
amplitude ≠ 0, exactly 4 of the 8 table samples at `t_i = i*(1/f)/8`
(`i = 0..7`) equal `+amplitude` — exactly those with `pos < 0.5`, i.e.
`i < 4` — and the other 4 equal `-amplitude`; the boundary sample `i = 4`
(`pos = 0.5`) deterministically falls on the `-amplitude` side. -/
theorem square_table_half_duty (cfg : Config) (hf : 0 < cfg.fre_squ)
    (hd : cfg.duty_cycle = 1/2) (ha : cfg.amp_squ ≠ 0) :
    (∀ i ∈ Finset.range 8, squareTableY cfg i = cfg.amp_squ ↔ i < 4) ∧
    ((Finset.range 8).filter (fun i => squareTableY cfg i = cfg.amp_squ)).card = 4 ∧
    ((Finset.range 8).filter (fun i => squareTableY cfg i = -cfg.amp_squ)).card = 4 ∧
    squareTableY cfg 4 = -cfg.amp_squ := by
  have hper : (0:ℝ) < 1 / cfg.fre_squ := by positivity
  have hpt : ∀ i : ℕ, i < 8 →
      squareTableY cfg i
        = if (i:ℝ)/8 < cfg.duty_cycle then cfg.amp_squ else -cfg.amp_squ := by
    intro i hi
    rw [squareTableY, sample_square_pos cfg _ hf]
    have ht0 : (0:ℝ) ≤ (i:ℝ) * ((1/cfg.fre_squ)/8) := by positivity
    have hi8 : (i:ℝ) < 8 := by exact_mod_cast hi
    have htT : (i:ℝ) * ((1/cfg.fre_squ)/8) < 1/cfg.fre_squ := by
      calc (i:ℝ) * ((1/cfg.fre_squ)/8)
          < 8 * ((1/cfg.fre_squ)/8) := by
            exact mul_lt_mul_of_pos_right hi8 (by positivity)
        _ = 1/cfg.fre_squ := by ring
    rw [fmodf_of_lt ht0 htT]
    rw [show (i:ℝ) * ((1/cfg.fre_squ)/8) / (1/cfg.fre_squ) = (i:ℝ)/8 by
      field_simp
      ring]
  have hpos : ∀ i ∈ Finset.range 8, (squareTableY cfg i = cfg.amp_squ ↔ i < 4) := by
    intro i hi
    rw [hpt i (Finset.mem_range.mp hi), hd]
    by_cases hlt : i < 4
    · have h3 : (i:ℝ) ≤ 3 := by exact_mod_cast Nat.lt_succ_iff.mp hlt
      rw [if_pos (by linarith : (i:ℝ)/8 < 1/2)]
      simp [hlt]
    · have h4 : (4:ℝ) ≤ (i:ℝ) := by exact_mod_cast not_lt.mp hlt
      rw [if_neg (by push_neg; linarith : ¬((i:ℝ)/8 < 1/2))]
      simp only [hlt, iff_false]
      intro h
      exact ha (by linarith)
  have hneg : ∀ i ∈ Finset.range 8, (squareTableY cfg i = -cfg.amp_squ ↔ 4 ≤ i) := by
    intro i hi
    rw [hpt i (Finset.mem_range.mp hi), hd]
    by_cases hlt : i < 4
    · have h3 : (i:ℝ) ≤ 3 := by exact_mod_cast Nat.lt_succ_iff.mp hlt
      rw [if_pos (by linarith : (i:ℝ)/8 < 1/2)]
      simp only [not_le.mpr hlt, iff_false]
      intro h
      exact ha (by linarith)
    · have h4 : (4:ℝ) ≤ (i:ℝ) := by exact_mod_cast not_lt.mp hlt
      rw [if_neg (by push_neg; linarith : ¬((i:ℝ)/8 < 1/2))]
      simp [not_lt.mp hlt]
  refine ⟨hpos, ?_, ?_, ?_⟩
  · rw [Finset.filter_congr hpos]
    decide
  · rw [Finset.filter_congr hneg]
    decide
  · rw [hpt 4 (by norm_num), hd]
    norm_num

theorem square_table_half_duty_witness :
    (0:ℝ) < cfgUnit.fre_squ ∧ squareTableY cfgUnit 4 = -cfgUnit.amp_squ :=
  ⟨by norm_num [cfgUnit],
   (square_table_half_duty cfgUnit (by norm_num [cfgUnit]) rfl
     (by norm_num [cfgUnit])).2.2.2⟩

/-- For nonnegative times the base sample never exceeds the kind's
configured amplitude in magnitude. -/
theorem abs_sample_le_abs_amp_base (cfg : Config) (wt : ℤ) (t : ℝ)
    (ht : 0 ≤ t) :
    |sample_base_waveform cfg wt t| ≤ |amp_base cfg wt| := by
  by_cases h1 : wt = 1
  · subst h1
    rw [show sample_base_waveform cfg 1 t
        = cfg.amp_sin * Real.sin (2 * π * cfg.fre_sin * t + cfg.phase_sin) by
      rw [sample_base_waveform]; norm_num]
    rw [show amp_base cfg 1 = cfg.amp_sin by rw [amp_base]; norm_num]
    rw [abs_mul]
    calc |cfg.amp_sin| * |Real.sin (2 * π * cfg.fre_sin * t + cfg.phase_sin)|
        ≤ |cfg.amp_sin| * 1 :=
          mul_le_mul_of_nonneg_left (Real.abs_sin_le_one _) (abs_nonneg _)
      _ = |cfg.amp_sin| := mul_one _
  · by_cases h2 : wt = 2
    · subst h2
      rw [show amp_base cfg 2 = cfg.amp_squ by rw [amp_base]; norm_num]
      by_cases hf : cfg.fre_squ ≤ 0
      · rw [show sample_base_waveform cfg 2 t = 0 by
          rw [sample_base_waveform]; norm_num [hf]]
        simp [abs_nonneg]
      · rw [sample_square_pos cfg t (not_le.mp hf)]
        split_ifs
        · exact le_refl _
        · rw [abs_neg]
    · by_cases h3 : wt = 3
      · subst h3
        rw [show amp_base cfg 3 = cfg.amp_tra by rw [amp_base]; norm_num]
        by_cases hf : cfg.fre_tra ≤ 0
        · rw [show sample_base_waveform cfg 3 t = 0 by
            rw [sample_base_waveform]; norm_num [hf]]
          simp [abs_nonneg]
        · have hT : (0:ℝ) < 1 / cfg.fre_tra := by
            have := not_le.mp hf
            positivity
          set pos := fmodf t (1 / cfg.fre_tra) / (1 / cfg.fre_tra) with hpos
          have hp0 : 0 ≤ pos := fmodf_div_nonneg ht hT
          have hp1 : pos < 1 := fmodf_div_lt_one ht hT
          rw [sample_triangle_pos cfg t (not_le.mp hf), ← hpos,
            triangleShape_eq_abs]
          have hd0 : 0 ≤ |pos - 1/2| := abs_nonneg _
          have hd : |pos - 1/2| ≤ 1/2 := abs_le.mpr ⟨by linarith, by linarith⟩
          rw [show cfg.amp_tra - 4 * cfg.amp_tra * |pos - 1/2|
              = cfg.amp_tra * (1 - 4 * |pos - 1/2|) by ring, abs_mul]
          calc |cfg.amp_tra| * abs (1 - 4 * |pos - 1/2|)
              ≤ |cfg.amp_tra| * 1 := by
                refine mul_le_mul_of_nonneg_left ?_ (abs_nonneg _)
                exact abs_le.mpr ⟨by linarith, by linarith⟩
            _ = |cfg.amp_tra| := mul_one _
      · by_cases h4 : wt = 4
        · subst h4
          rw [show amp_base cfg 4 = cfg.amp_saw by rw [amp_base]; norm_num]
          by_cases hf : cfg.fre_saw ≤ 0
          · rw [show sample_base_waveform cfg 4 t = 0 by
              rw [sample_base_waveform]; norm_num [hf]]
            simp [abs_nonneg]
          · have hT : (0:ℝ) < 1 / cfg.fre_saw := by
              have := not_le.mp hf
              positivity
            set fr := fmodf t (1 / cfg.fre_saw) / (1 / cfg.fre_saw) with hfr
            have hp0 : 0 ≤ fr := fmodf_div_nonneg ht hT
            have hp1 : fr < 1 := fmodf_div_lt_one ht hT
            rw [sample_sawtooth_pos cfg t (not_le.mp hf), ← hfr]
            rw [show -cfg.amp_saw + 2 * cfg.amp_saw * fr
                = cfg.amp_saw * (2 * fr - 1) by ring, abs_mul]
            calc |cfg.amp_saw| * |2 * fr - 1|
                ≤ |cfg.amp_saw| * 1 := by
                  refine mul_le_mul_of_nonneg_left ?_ (abs_nonneg _)
                  exact abs_le.mpr ⟨by linarith, by linarith⟩
              _ = |cfg.amp_saw| := mul_one _
        · rw [show sample_base_waveform cfg wt t = 0 by
            rw [sample_base_waveform]; norm_num [h1, h2, h3, h4]]
          rw [show amp_base cfg wt = 1 by rw [amp_base]; norm_num [h1, h2, h3, h4]]
          norm_num

/-- C5: in the modulation routines' normalization (computed identically in
`run_AM`, `run_FM` and `run_PWM`, over the nonnegative sample times
`t = i * step` those routines produce), the normalized base value equals
`sample / amp_base` whenever the base amplitude is nonzero and then lies in
`[-1, 1]`; when the base amplitude is exactly 0 it is defined as 0, so the
division is always guarded. -/
theorem modulation_normalized_base (cfg : Config) (wt : ℤ) (t : ℝ)
    (ht : 0 ≤ t) :
    (amp_base cfg wt ≠ 0 →
      xnorm cfg wt t = sample_base_waveform cfg wt t / amp_base cfg wt) ∧
    (-1 ≤ xnorm cfg wt t ∧ xnorm cfg wt t ≤ 1) ∧
    (amp_base cfg wt = 0 → xnorm cfg wt t = 0) ∧
    (∀ Ac fc m, run_AM_y cfg wt Ac fc m t
        = (Ac * (1 + m * xnorm cfg wt t)) * Real.sin (2 * π * fc * t)) := by
  refine ⟨fun h => by rw [xnorm, if_pos h], ?_,
    fun h => by rw [xnorm, if_neg (fun hn => hn h)],
    fun Ac fc m => by simp only [run_AM_y, xnorm]⟩
  by_cases hab : amp_base cfg wt = 0
  · rw [xnorm, if_neg (fun hn => hn hab)]
    norm_num
  · rw [xnorm, if_pos hab]
    have h := abs_sample_le_abs_amp_base cfg wt t ht
    have h2 : |sample_base_waveform cfg wt t / amp_base cfg wt| ≤ 1 := by
      rw [abs_div]
      exact div_le_one_of_le₀ h (abs_nonneg _)
    exact abs_le.mp h2

theorem modulation_normalized_base_witness :
    (0:ℝ) ≤ 0 ∧ (-1 ≤ xnorm cfgUnit 1 0 ∧ xnorm cfgUnit 1 0 ≤ 1) :=
  ⟨le_refl 0, (modulation_normalized_base cfgUnit 1 0 (le_refl 0)).2.1⟩
